import Mathlib

/-!
Shallow embedding of the DiffAnnotator core (src/src/App.tsx).

The application keeps three stores backed by JavaScript insertion-ordered
maps (`useMap` from usehooks-ts, i.e. a JS `Map`):
labels (`labelMap : UUID -> string`), hunk associations
(`hunkMap : Hunk -> UUID`, keyed by the hunk object's identity) and the
label filter (`labelFilter : UUID -> undefined`, used as a set).

JS `Map` semantics are modelled by association lists (`jsGet`, `jsSet`,
`jsRemove`): `set` on an existing key overwrites the value in place
(keeping the key's insertion position), `set` on a fresh key appends.
A plain JS object used with string keys (`object[k] = v` in
`exportAsJSON`) has the same overwrite-in-place/append behaviour.

JS object identity of a hunk is modelled by an explicit identity token
`hid : Nat` on `Hunk`; `hunkMap` is keyed by `hid`.  UUIDs are modelled
as naturals: `NULL_UUID` (the `NIL` uuid) is `0`, and the collision-free
generator `uuidv4` is modelled by a counter `nextUUID` carried in the
state.

The external parsers (`JSON.parse` and `parsePatch` from the `diff`
library) are external collaborators, not code of this repository: their
outcome (a parsed value, or the thrown error) is supplied as part of the
`RawInput` value, and the surrounding control flow of the `diff` useMemo
is translated faithfully.
-/

abbrev UUID := Nat

/-- The `NIL` uuid from the uuid package (`NULL_UUID` in the source). -/
def NULL_UUID : UUID := 0

/-- A diff hunk as produced by `parsePatch`. `hid` models the JS object
identity of the hunk (the source keys `hunkMap` by the hunk object
itself); the remaining fields are the hunk's visible content. -/
structure Hunk where
  hid : Nat
  oldStart : Nat
  oldLines : Nat
  newStart : Nat
  newLines : Nat
  lines : List String
deriving DecidableEq, Repr

/-- A `ParsedDiff` record: filename pair plus its ordered hunks. -/
structure FileDiff where
  oldFileName : String
  newFileName : String
  hunks : List Hunk
deriving DecidableEq, Repr

/-- Lookup in a JS `Map` modelled as an association list. -/
def jsGet {α β : Type} [DecidableEq α] : List (α × β) → α → Option β
  | [], _ => none
  | (k', v) :: rest, k => if k' = k then some v else jsGet rest k

/-- JS `Map.set` / `object[k] = v`: overwrite in place if the key is
present, append otherwise. -/
def jsSet {α β : Type} [DecidableEq α] : List (α × β) → α → β → List (α × β)
  | [], k, v => [(k, v)]
  | (k', v') :: rest, k, v =>
      if k' = k then (k, v) :: rest else (k', v') :: jsSet rest k v

/-- JS `Map.delete`: drop the entry with the given key, if present. -/
def jsRemove {α β : Type} [DecidableEq α] : List (α × β) → α → List (α × β)
  | [], _ => []
  | (k', v') :: rest, k =>
      if k' = k then rest else (k', v') :: jsRemove rest k

/-- The whole mutable session state of the `App` component: the derived
`diff` list (the `useMemo` result), the three stores, and the uuid
counter modelling `generateUUID`. -/
structure AppState where
  diff : List FileDiff
  labelMap : List (UUID × String)
  hunkMap : List (Nat × UUID)
  labelFilter : List UUID
  nextUUID : UUID
deriving DecidableEq, Repr

/-- Source `addLabel` (lines 213-219): rejects empty text, otherwise inserts a
fresh uuid with the given text. -/
def addLabel (s : AppState) (newLabel : String) : AppState :=
  if newLabel.length = 0 then s
  else { s with labelMap := jsSet s.labelMap s.nextUUID newLabel
              , nextUUID := s.nextUUID + 1 }

/-- Source `changeLabel` (lines 221-223): `labelMapActions.set(id, newLabel)`,
with no check that `id` is present. -/
def changeLabel (s : AppState) (id : UUID) (newLabel : String) : AppState :=
  { s with labelMap := jsSet s.labelMap id newLabel }

/-- Source `removeLabel` (lines 225-227): `labelMapActions.remove(id)`. Note
that this touches only the label store. -/
def removeLabel (s : AppState) (id : UUID) : AppState :=
  { s with labelMap := jsRemove s.labelMap id }

/-- Source `onHunkLabelChange` (lines 229-235). -/
def onHunkLabelChange (s : AppState) (h : Hunk) (newLabelId : Option UUID) : AppState :=
  match newLabelId with
  | none => { s with hunkMap := jsRemove s.hunkMap h.hid }
  | some id => { s with hunkMap := jsSet s.hunkMap h.hid id }

/-- Source `addToFilter` (lines 239-241): `labelFilterActions.set(id, undefined)`;
on a JS `Map` used as a set this appends the id if it is new and is a
no-op on the membership list otherwise. -/
def addToFilter (s : AppState) (id : UUID) : AppState :=
  { s with labelFilter :=
      if id ∈ s.labelFilter then s.labelFilter else s.labelFilter ++ [id] }

/-- Source `removeFromFilter` (lines 243-245). -/
def removeFromFilter (s : AppState) (id : UUID) : AppState :=
  { s with labelFilter := s.labelFilter.erase id }

/-- The hunk traversal order used by both `exportAsJSON` and the hunk
rendering: files in order, and within each file its hunks in order, each
paired with its `FileDiff`. -/
def traversal (diff : List FileDiff) : List (FileDiff × Hunk) :=
  diff.flatMap (fun fd => fd.hunks.map (fun h => (fd, h)))

/-- The expression `hunkMap.get(hunk) || NULL_UUID` of line 250. -/
def hunkUUID (hunkMap : List (Nat × UUID)) (h : Hunk) : UUID :=
  (jsGet hunkMap h.hid).getD NULL_UUID

/-- The filename-pair grouping key: `JSON.stringify([oldFileName,
newFileName])` (line 256), injective on the pair, modelled as the pair. -/
def occKey (p : FileDiff × Hunk) : String × String :=
  (p.1.oldFileName, p.1.newFileName)

/-- Inner grouping map of `exportAsJSON`: filename pair to synthetic diff. -/
abbrev InnerMap := List ((String × String) × FileDiff)

/-- Outer grouping map of `exportAsJSON`: effective uuid to inner map. -/
abbrev OuterMap := List (UUID × InnerMap)

/-- The inner-map part of the grouping loop of `exportAsJSON` (lines
255-261): find or create the synthetic diff `{...fileDiff, hunks: []}`
for the filename pair and push the hunk onto it. -/
def pushHunk (inner : InnerMap) (fd : FileDiff) (h : Hunk) : InnerMap :=
  let key := (fd.oldFileName, fd.newFileName)
  let syn := (jsGet inner key).getD { fd with hunks := [] }
  jsSet inner key { syn with hunks := syn.hunks ++ [h] }

/-- One step of the grouping loop of `exportAsJSON` (lines 249-262):
find or create the outer entry for the hunk's effective uuid
(`map.set(uuid, new Map())` when absent), then push the hunk into the
inner map. -/
def insertHunk (hunkMap : List (Nat × UUID)) (m : OuterMap) (fd : FileDiff) (h : Hunk) : OuterMap :=
  let uuid := hunkUUID hunkMap h
  jsSet m uuid (pushHunk ((jsGet m uuid).getD []) fd h)

/-- The grouping phase of `exportAsJSON`, folded over a traversal. -/
def buildGroups (hunkMap : List (Nat × UUID)) (ts : List (FileDiff × Hunk)) : OuterMap :=
  ts.foldl (fun m p => insertHunk hunkMap m p.1 p.2) []

/-- The expression `labelMap.get(id) || "undefined"` of line 266: the key under which a
group is written; the empty string is falsy in JS, so an empty label
text also yields the sentinel. -/
def jsLabelText (labelMap : List (UUID × String)) (u : UUID) : String :=
  match jsGet labelMap u with
  | some t => if t = "" then "undefined" else t
  | none => "undefined"

/-- Source `exportAsJSON` (lines 247-272): group the traversal, then write each
group into a plain JS object keyed by `labelMap.get(id) || "undefined"`,
the value being `Array.from(innerMap.values())`. -/
def serialize (diff : List FileDiff) (hunkMap : List (Nat × UUID))
    (labelMap : List (UUID × String)) : List (String × List FileDiff) :=
  (buildGroups hunkMap (traversal diff)).foldl
    (fun obj g => jsSet obj (jsLabelText labelMap g.1) (g.2.map Prod.snd)) []

/-- The hunk-association assignments performed for one imported document
entry (line 203): `parsedDiffs.forEach(pd => pd.hunks.forEach(h =>
hunkMapActions.set(h, id)))`. -/
def assignEntry (hm : List (Nat × UUID)) (fds : List FileDiff) (id : UUID) : List (Nat × UUID) :=
  fds.foldl (fun hm fd => fd.hunks.foldl (fun hm h => jsSet hm h.hid id) hm) hm

/-- One iteration of the `Object.entries(data).forEach` import loop
(lines 201-205): `importLabel` allocates a fresh uuid for the label
text, every hunk of every diff under the entry is associated to it, and
the diffs are appended to the result. -/
def importDocStep (acc : AppState × List FileDiff) (entry : String × List FileDiff) :
    AppState × List FileDiff :=
  let s := acc.1
  let id := s.nextUUID
  let s := { s with nextUUID := s.nextUUID + 1
                  , labelMap := jsSet s.labelMap id entry.1 }
  let s := { s with hunkMap := assignEntry s.hunkMap entry.2 id }
  (s, acc.2 ++ entry.2)

/-- The raw input handed to the `diff` useMemo, tagged by the
`isJSON` flag. The external parser's outcome (`parsePatch` for diff
text, `JSON.parse` for document text) is part of the value: `Except`
carries the message of the error the parser throws. -/
inductive RawInput where
  | diffFile (parsed : Except String (List FileDiff))
  | jsonFile (parsed : Except String (List (String × List FileDiff)))
deriving Repr

/-- The state reached once both `hunkMapActions.reset()` and
`labelMapActions.reset()` have run at the start of a JSON import. -/
def importInitState (s : AppState) : AppState :=
  { s with hunkMap := [], labelMap := [] }

/-- The `diff` useMemo (lines 192-211), as a state transformer.
`hunkMapActions.reset()` runs first in both modes.  In JSON mode
`JSON.parse` runs next, so a parse failure escapes after the hunk map
was already cleared and before `labelMapActions.reset()`; on success the
label map is reset and the entries are imported in order.  In diff mode
the label map is never touched.  The returned `Except` is the thrown
parse error, if any; on success the resulting file diff list replaces
`s.diff`. -/
def loadInput (s : AppState) (input : RawInput) : AppState × Except String Unit :=
  let s0 := { s with hunkMap := [] }
  match input with
  | .diffFile (.error e) => (s0, .error e)
  | .diffFile (.ok fds) => ({ s0 with diff := fds }, .ok ())
  | .jsonFile (.error e) => (s0, .error e)
  | .jsonFile (.ok doc) =>
      let s1 := { s0 with labelMap := [] }
      let r := doc.foldl importDocStep (s1, [])
      ({ r.1 with diff := r.2 }, .ok ())

/-- Importing a previously exported document (the JSON branch of the
`diff` useMemo, on a successfully parsed document). -/
def importDocument (s : AppState) (doc : List (String × List FileDiff)) : AppState :=
  (loadInput s (.jsonFile (.ok doc))).1

/-- Serialize the current state and import the result, as in saving the
export file and loading it back. -/
def roundTrip (s : AppState) : AppState :=
  importDocument s (serialize s.diff s.hunkMap s.labelMap)

/-- The visibility predicate of line 331: `labelFilter.size === 0 ||
!hunkMap.has(hunk) || labelFilter.has(hunkMap.get(hunk) as UUID)`. -/
def hunkVisible (s : AppState) (h : Hunk) : Bool :=
  s.labelFilter.length = 0 ∨ (jsGet s.hunkMap h.hid).isNone
    ∨ ((jsGet s.hunkMap h.hid).getD NULL_UUID) ∈ s.labelFilter

/-- The rendered hunk occurrences (lines 330-332): per file, the hunks
passing the visibility predicate, in traversal order. -/
def visibleHunks (s : AppState) : List (FileDiff × Hunk) :=
  s.diff.flatMap (fun fd => (fd.hunks.filter (fun h => hunkVisible s h)).map (fun h => (fd, h)))

/-- One render-and-effects pass over the currently visible hunks: the
`HunkView` effect (lines 60-64) fires for each rendered hunk and removes
its association when it points to a label id no longer in the label map.
Hunks hidden by the filter are not rendered, so their effects do not
run.  No code path touches the filter here: the only filter mutations in
the source are the `LabelView` toggle effect (lines 128-134), which has
no unmount cleanup. -/
def hunkEffect (s : AppState) (hm : List (Nat × UUID)) (p : FileDiff × Hunk) :
    List (Nat × UUID) :=
  match jsGet s.hunkMap p.2.hid with
  | some id => if (jsGet s.labelMap id).isSome then hm else jsRemove hm p.2.hid
  | none => hm

/-- Fold of the per-hunk effects over the rendered hunks. -/
def renderPass (s : AppState) : AppState :=
  { s with hunkMap := (visibleHunks s).foldl (hunkEffect s) s.hunkMap }

/-! ## Specification predicates and derived views used by the theorems -/

/-- The hunks of the traversal that belong to the `(uuid, filename-pair)`
group, in traversal order. -/
def groupHunks (hm : List (Nat × UUID)) (ts : List (FileDiff × Hunk)) (u : UUID)
    (key : String × String) : List Hunk :=
  (ts.filter (fun p => decide (hunkUUID hm p.2 = u ∧ occKey p = key))).map Prod.snd

/-- Correctness of one inner grouping map for uuid `u`, relative to the
traversal `ts`: its keys are exactly the filename pairs occurring with
`u`, and each synthetic diff carries the key's filenames and exactly the
group's hunks in traversal order. -/
def InnerOK (hm : List (Nat × UUID)) (ts : List (FileDiff × Hunk)) (u : UUID)
    (inner : InnerMap) : Prop :=
  (inner.map Prod.fst).Nodup ∧
  (∀ key, (∃ syn, jsGet inner key = some syn) ↔
    ∃ p ∈ ts, hunkUUID hm p.2 = u ∧ occKey p = key) ∧
  (∀ key syn, jsGet inner key = some syn →
    syn.oldFileName = key.1 ∧ syn.newFileName = key.2 ∧
      syn.hunks = groupHunks hm ts u key)

/-- Correctness of the whole grouping map relative to the traversal. -/
def GroupsOK (hm : List (Nat × UUID)) (ts : List (FileDiff × Hunk)) (m : OuterMap) : Prop :=
  (m.map Prod.fst).Nodup ∧
  (∀ u, (∃ inner, jsGet m u = some inner) ↔ ∃ p ∈ ts, hunkUUID hm p.2 = u) ∧
  (∀ u inner, jsGet m u = some inner → InnerOK hm ts u inner)

/-- The value carried by the last write with key `k` in a write list. -/
def lastVal {κ α : Type} [DecidableEq κ] : List (κ × α) → κ → Option α
  | [], _ => none
  | p :: rest, k =>
      match lastVal rest k with
      | some v => some v
      | none => if p.1 = k then some p.2 else none

/-- The document list produced by the second phase of `exportAsJSON`,
written out as a plain write list: key and value of each group. -/
def docEntries (labelMap : List (UUID × String)) (m : OuterMap) : List (String × List FileDiff) :=
  m.map (fun g => (jsLabelText labelMap g.1, g.2.map Prod.snd))

/-- The object identities of all hunks carried by one document entry. -/
def entryHids (fds : List FileDiff) : List Nat :=
  (fds.flatMap (fun fd => fd.hunks)).map (fun h => h.hid)

/-- The import loop of the JSON branch, folded from a given state. -/
def importFold (doc : List (String × List FileDiff)) (s : AppState) (res : List FileDiff) :
    AppState × List FileDiff :=
  doc.foldl importDocStep (s, res)

/-! ## Concrete states used to instantiate the results -/

/-- A hunk with object identity 0. -/
def hA : Hunk := ⟨0, 1, 2, 1, 3, ["+a", " b"]⟩

/-- A hunk with object identity 1 and different content. -/
def hB : Hunk := ⟨1, 5, 1, 6, 1, ["-c"]⟩

/-- A file diff containing both sample hunks. -/
def fdAB : FileDiff := ⟨"a.txt", "b.txt", [hA, hB]⟩

/-- A file diff containing only the first sample hunk. -/
def fdA1 : FileDiff := ⟨"a.txt", "b.txt", [hA]⟩

/-- One labeled and one uncategorized hunk. -/
def w1state : AppState := ⟨[fdAB], [(1, "x")], [(0, 1)], [], 2⟩

/-- Two distinct labels with the same text "x", each with one hunk. -/
def c1cexState : AppState := ⟨[fdAB], [(1, "x"), (2, "x")], [(0, 1), (1, 2)], [], 3⟩

/-- Hunk associated to label 1, labels 1 and 2 both in the filter. -/
def c2stateA : AppState := ⟨[fdA1], [(1, "L"), (2, "M")], [(0, 1)], [1, 2], 3⟩

/-- Hunk associated to label 1, only label 2 in the filter. -/
def c2stateB : AppState := ⟨[fdA1], [(1, "L"), (2, "M")], [(0, 1)], [2], 3⟩

/-- A state with a nonempty association store. -/
def c3state : AppState := ⟨[fdA1], [(1, "L")], [(0, 1)], [], 2⟩

/-- A state with one label and no hunks. -/
def c4state : AppState := ⟨[], [(1, "x")], [], [], 2⟩

/-- A hunk associated to a label whose text is the empty string. -/
def c5state : AppState := ⟨[fdA1], [(1, "")], [(0, 1)], [], 2⟩

/-- One labeled and one uncategorized hunk, for the serializer shape. -/
def c5wstate : AppState := ⟨[fdAB], [(1, "x")], [(0, 1)], [], 2⟩

/-- One hunk, empty filter. -/
def c6state : AppState := ⟨[fdA1], [], [], [], 1⟩

/-- A state with an empty label store. -/
def c7state : AppState := ⟨[], [], [], [], 1⟩

/-- Two labels with one hunk associated to the first. -/
def w8state : AppState := ⟨[fdA1], [(1, "a"), (2, "b")], [(0, 1)], [], 3⟩

/-- Two distinct labels sharing the text "x". -/
def c9state : AppState := ⟨[fdAB], [(1, "x"), (2, "x")], [(0, 1), (1, 2)], [], 3⟩

/-- A hunk associated to an empty-text label. -/
def c10state : AppState := ⟨[fdA1], [(1, "")], [(0, 1)], [], 2⟩

/-! ## Association-list lemmas -/

theorem jsGet_jsSet {α β : Type} [DecidableEq α] (m : List (α × β)) (k k' : α) (v : β) :
    jsGet (jsSet m k v) k' = if k = k' then some v else jsGet m k' := by
  induction m with
  | nil => simp [jsGet, jsSet]
  | cons p rest ih =>
      obtain ⟨a, b⟩ := p
      by_cases hak : a = k
      · subst hak
        by_cases hk' : a = k'
        · subst hk'; simp [jsGet, jsSet]
        · simp [jsGet, jsSet, hk']
      · by_cases hk' : a = k'
        · subst hk'
          simp [jsGet, jsSet, hak, Ne.symm hak]
        · simp [jsGet, jsSet, hak, hk', ih]

theorem jsGet_jsSet_self {α β : Type} [DecidableEq α] (m : List (α × β)) (k : α) (v : β) :
    jsGet (jsSet m k v) k = some v := by
  simp [jsGet_jsSet]

theorem jsGet_jsSet_ne {α β : Type} [DecidableEq α] (m : List (α × β)) {k k' : α} (v : β)
    (h : k ≠ k') : jsGet (jsSet m k v) k' = jsGet m k' := by
  simp [jsGet_jsSet, h]

theorem jsGet_eq_none_iff {α β : Type} [DecidableEq α] (m : List (α × β)) (k : α) :
    jsGet m k = none ↔ k ∉ m.map Prod.fst := by
  induction m with
  | nil => simp [jsGet]
  | cons p rest ih =>
      obtain ⟨a, b⟩ := p
      by_cases hak : a = k
      · subst hak; simp [jsGet]
      · simp [jsGet, hak, ih, Ne.symm hak]

theorem jsGet_isSome_iff {α β : Type} [DecidableEq α] (m : List (α × β)) (k : α) :
    (∃ v, jsGet m k = some v) ↔ k ∈ m.map Prod.fst := by
  rw [← Option.isSome_iff_exists]
  rcases h : jsGet m k with _ | v
  · simp only [Option.isSome_none, Bool.false_eq_true, false_iff]
    exact (jsGet_eq_none_iff m k).mp h
  · simp only [Option.isSome_some, true_iff]
    by_contra hk
    rw [(jsGet_eq_none_iff m k).mpr hk] at h
    exact Option.noConfusion h

theorem jsSet_of_not_mem {α β : Type} [DecidableEq α] {m : List (α × β)} {k : α} (v : β)
    (h : k ∉ m.map Prod.fst) : jsSet m k v = m ++ [(k, v)] := by
  induction m with
  | nil => simp [jsSet]
  | cons p rest ih =>
      obtain ⟨a, b⟩ := p
      simp only [List.map_cons, List.mem_cons, not_or] at h
      simp [jsSet, Ne.symm h.1, ih h.2]

theorem jsSet_keys {α β : Type} [DecidableEq α] (m : List (α × β)) (k : α) (v : β) :
    (jsSet m k v).map Prod.fst =
      if k ∈ m.map Prod.fst then m.map Prod.fst else m.map Prod.fst ++ [k] := by
  induction m with
  | nil => simp [jsSet]
  | cons p rest ih =>
      obtain ⟨a, b⟩ := p
      by_cases hak : a = k
      · subst hak; simp [jsSet]
      · by_cases hmem : k ∈ rest.map Prod.fst
        · simp [jsSet, hak, ih, hmem, Ne.symm hak]
        · simp [jsSet, hak, ih, hmem, Ne.symm hak]

theorem jsSet_keys_nodup {α β : Type} [DecidableEq α] {m : List (α × β)} (k : α) (v : β)
    (h : (m.map Prod.fst).Nodup) : ((jsSet m k v).map Prod.fst).Nodup := by
  rw [jsSet_keys]
  by_cases hmem : k ∈ m.map Prod.fst
  · simpa [hmem] using h
  · rw [if_neg hmem]
    refine List.Nodup.append h (List.nodup_singleton k) ?_
    intro a ha hb
    rw [List.mem_singleton] at hb
    subst hb
    exact hmem ha

theorem jsGet_mem {α β : Type} [DecidableEq α] {m : List (α × β)} {k : α} {v : β}
    (h : jsGet m k = some v) : (k, v) ∈ m := by
  induction m with
  | nil => simp [jsGet] at h
  | cons p rest ih =>
      obtain ⟨a, b⟩ := p
      by_cases hak : a = k
      · subst hak
        simp only [jsGet, if_pos, Option.some.injEq] at h
        subst h; exact List.mem_cons_self _ _
      · simp only [jsGet, hak, if_false] at h
        exact List.mem_cons_of_mem _ (ih h)

theorem jsGet_of_mem_nodup {α β : Type} [DecidableEq α] {m : List (α × β)} {k : α} {v : β}
    (hnd : (m.map Prod.fst).Nodup) (h : (k, v) ∈ m) : jsGet m k = some v := by
  induction m with
  | nil => simp at h
  | cons p rest ih =>
      obtain ⟨a, b⟩ := p
      simp only [List.map_cons, List.nodup_cons] at hnd
      rcases List.mem_cons.mp h with h1 | h2
      · rw [Prod.ext_iff] at h1
        obtain ⟨h1a, h1b⟩ := h1
        subst h1a; subst h1b
        simp [jsGet]
      · have hak : a ≠ k := by
          rintro rfl
          exact hnd.1 (List.mem_map.mpr ⟨(a, v), h2, rfl⟩)
        simp only [jsGet, hak, if_false]
        exact ih hnd.2 h2

/-! ## Characterization of the grouping phase -/

theorem groupHunks_append (hm : List (Nat × UUID)) (ts : List (FileDiff × Hunk))
    (p : FileDiff × Hunk) (u : UUID) (key : String × String) :
    groupHunks hm (ts ++ [p]) u key =
      groupHunks hm ts u key ++
        (if hunkUUID hm p.2 = u ∧ occKey p = key then [p.2] else []) := by
  unfold groupHunks
  rw [List.filter_append, List.map_append]
  congr 1
  by_cases hp : hunkUUID hm p.2 = u ∧ occKey p = key
  · simp [hp]
  · simp [hp]

theorem groupHunks_eq_nil (hm : List (Nat × UUID)) (ts : List (FileDiff × Hunk)) (u : UUID)
    (key : String × String) (hno : ¬ ∃ p ∈ ts, hunkUUID hm p.2 = u ∧ occKey p = key) :
    groupHunks hm ts u key = [] := by
  unfold groupHunks
  rw [List.map_eq_nil_iff, List.filter_eq_nil_iff]
  intro p hp
  simp only [decide_eq_true_eq]
  exact fun hc => hno ⟨p, hp, hc⟩

theorem innerOK_nil (hm : List (Nat × UUID)) (ts : List (FileDiff × Hunk)) (u : UUID)
    (hno : ¬ ∃ p ∈ ts, hunkUUID hm p.2 = u) : InnerOK hm ts u [] := by
  refine ⟨List.nodup_nil, fun key => ?_, fun key syn hsyn => ?_⟩
  · constructor
    · rintro ⟨syn, hsyn⟩
      exact absurd hsyn (by simp [jsGet])
    · rintro ⟨p, hp, hu, -⟩
      exact absurd ⟨p, hp, hu⟩ hno
  · exact absurd hsyn (by simp [jsGet])

theorem innerOK_extend_ne (hm : List (Nat × UUID)) (ts : List (FileDiff × Hunk))
    (p : FileDiff × Hunk) (u : UUID) (inner : InnerMap)
    (hne : hunkUUID hm p.2 ≠ u) (hok : InnerOK hm ts u inner) :
    InnerOK hm (ts ++ [p]) u inner := by
  obtain ⟨hnd, hex, hcond⟩ := hok
  refine ⟨hnd, fun key => ?_, fun key syn hsyn => ?_⟩
  · rw [hex key]
    constructor
    · rintro ⟨q, hq, hqs⟩
      exact ⟨q, List.mem_append_left _ hq, hqs⟩
    · rintro ⟨q, hq, hqu, hqk⟩
      rcases List.mem_append.mp hq with hq' | hq'
      · exact ⟨q, hq', hqu, hqk⟩
      · rw [List.mem_singleton] at hq'
        subst hq'
        exact absurd hqu hne
  · obtain ⟨h1, h2, h3⟩ := hcond key syn hsyn
    refine ⟨h1, h2, ?_⟩
    rw [groupHunks_append]
    have : ¬ (hunkUUID hm p.2 = u ∧ occKey p = key) := fun hc => hne hc.1
    simp [this, h3]

theorem pushHunk_ok (hm : List (Nat × UUID)) (ts : List (FileDiff × Hunk))
    (p : FileDiff × Hunk) (inner : InnerMap)
    (hok : InnerOK hm ts (hunkUUID hm p.2) inner) :
    InnerOK hm (ts ++ [p]) (hunkUUID hm p.2) (pushHunk inner p.1 p.2) := by
  obtain ⟨hnd, hex, hcond⟩ := hok
  have hpush : pushHunk inner p.1 p.2 =
      jsSet inner (occKey p)
        { ((jsGet inner (occKey p)).getD { p.1 with hunks := [] }) with
            hunks := ((jsGet inner (occKey p)).getD { p.1 with hunks := [] }).hunks ++ [p.2] } :=
    rfl
  rw [hpush]
  refine ⟨jsSet_keys_nodup _ _ hnd, fun key => ?_, fun key syn hsyn => ?_⟩
  · rw [jsGet_jsSet]
    by_cases hk : occKey p = key
    · rw [if_pos hk]
      constructor
      · intro _
        exact ⟨p, List.mem_append_right _ (List.mem_singleton_self p), rfl, hk⟩
      · intro _
        exact ⟨_, rfl⟩
    · rw [if_neg hk, hex key]
      constructor
      · rintro ⟨q, hq, hqs⟩
        exact ⟨q, List.mem_append_left _ hq, hqs⟩
      · rintro ⟨q, hq, hqu, hqk⟩
        rcases List.mem_append.mp hq with hq' | hq'
        · exact ⟨q, hq', hqu, hqk⟩
        · rw [List.mem_singleton] at hq'
          subst hq'
          exact absurd hqk hk
  · rw [jsGet_jsSet] at hsyn
    by_cases hk : occKey p = key
    · subst hk
      rw [if_pos rfl, Option.some.injEq] at hsyn
      subst hsyn
      rw [groupHunks_append, if_pos ⟨rfl, rfl⟩]
      rcases hold : jsGet inner (occKey p) with _ | synOld
      · have hnog : groupHunks hm ts (hunkUUID hm p.2) (occKey p) = [] := by
          apply groupHunks_eq_nil
          rintro ⟨q, hq, hqc⟩
          rcases (hex (occKey p)).mpr ⟨q, hq, hqc⟩ with ⟨syn', hsyn'⟩
          rw [hold] at hsyn'
          exact Option.noConfusion hsyn'
        refine ⟨rfl, rfl, ?_⟩
        show [] ++ [p.2] = groupHunks hm ts (hunkUUID hm p.2) (occKey p) ++ [p.2]
        rw [hnog]
      · obtain ⟨f1, f2, f3⟩ := hcond (occKey p) synOld hold
        refine ⟨f1, f2, ?_⟩
        show synOld.hunks ++ [p.2] = groupHunks hm ts (hunkUUID hm p.2) (occKey p) ++ [p.2]
        rw [f3]
    · rw [if_neg hk] at hsyn
      obtain ⟨f1, f2, f3⟩ := hcond key syn hsyn
      refine ⟨f1, f2, ?_⟩
      rw [groupHunks_append, if_neg (fun hc => hk hc.2), f3, List.append_nil]

theorem groupsOK_insert (hm : List (Nat × UUID)) (ts : List (FileDiff × Hunk)) (m : OuterMap)
    (p : FileDiff × Hunk) (hok : GroupsOK hm ts m) :
    GroupsOK hm (ts ++ [p]) (insertHunk hm m p.1 p.2) := by
  obtain ⟨hnd, hex, hinn⟩ := hok
  have hins : insertHunk hm m p.1 p.2 =
      jsSet m (hunkUUID hm p.2) (pushHunk ((jsGet m (hunkUUID hm p.2)).getD []) p.1 p.2) :=
    rfl
  rw [hins]
  refine ⟨jsSet_keys_nodup _ _ hnd, fun u => ?_, fun u inner hu => ?_⟩
  · rw [jsGet_jsSet]
    by_cases hu0 : hunkUUID hm p.2 = u
    · rw [if_pos hu0]
      constructor
      · intro _
        exact ⟨p, List.mem_append_right _ (List.mem_singleton_self p), hu0⟩
      · intro _
        exact ⟨_, rfl⟩
    · rw [if_neg hu0, hex u]
      constructor
      · rintro ⟨q, hq, hqu⟩
        exact ⟨q, List.mem_append_left _ hq, hqu⟩
      · rintro ⟨q, hq, hqu⟩
        rcases List.mem_append.mp hq with hq' | hq'
        · exact ⟨q, hq', hqu⟩
        · rw [List.mem_singleton] at hq'
          subst hq'
          exact absurd hqu hu0
  · rw [jsGet_jsSet] at hu
    by_cases hu0 : hunkUUID hm p.2 = u
    · subst hu0
      rw [if_pos rfl, Option.some.injEq] at hu
      subst hu
      rcases hold : jsGet m (hunkUUID hm p.2) with _ | innerOld
      · have hno : ¬ ∃ q ∈ ts, hunkUUID hm q.2 = hunkUUID hm p.2 := by
          intro hc
          rcases (hex _).mpr hc with ⟨inner', hinner'⟩
          rw [hold] at hinner'
          exact Option.noConfusion hinner'
        exact pushHunk_ok hm ts p [] (innerOK_nil hm ts _ hno)
      · exact pushHunk_ok hm ts p innerOld (hinn _ innerOld hold)
    · rw [if_neg hu0] at hu
      exact innerOK_extend_ne hm ts p u inner hu0 (hinn u inner hu)

theorem groupsOK_nil (hm : List (Nat × UUID)) : GroupsOK hm [] [] := by
  refine ⟨List.nodup_nil, fun u => ?_, fun u inner hu => ?_⟩
  · simp [jsGet]
  · exact absurd hu (by simp [jsGet])

theorem groupsOK_foldl (hm : List (Nat × UUID)) :
    ∀ (rest done : List (FileDiff × Hunk)) (m : OuterMap), GroupsOK hm done m →
      GroupsOK hm (done ++ rest) (rest.foldl (fun m p => insertHunk hm m p.1 p.2) m) := by
  intro rest
  induction rest with
  | nil =>
      intro done m h
      simpa using h
  | cons p rest ih =>
      intro done m h
      rw [List.foldl_cons]
      have h2 := ih (done ++ [p]) _ (groupsOK_insert hm done m p h)
      rwa [List.append_assoc, List.singleton_append] at h2

/-- The grouping phase of `exportAsJSON` is correct for every traversal. -/
theorem buildGroups_ok (hm : List (Nat × UUID)) (ts : List (FileDiff × Hunk)) :
    GroupsOK hm ts (buildGroups hm ts) := by
  have h := groupsOK_foldl hm ts [] [] (groupsOK_nil hm)
  simpa [buildGroups] using h

/-- Every traversal occurrence lands in its group's synthetic diff. -/
theorem buildGroups_complete (hm : List (Nat × UUID)) (ts : List (FileDiff × Hunk))
    (p : FileDiff × Hunk) (hp : p ∈ ts) :
    ∃ inner syn, jsGet (buildGroups hm ts) (hunkUUID hm p.2) = some inner ∧
      jsGet inner (occKey p) = some syn ∧
      syn.oldFileName = p.1.oldFileName ∧ syn.newFileName = p.1.newFileName ∧
      syn.hunks = groupHunks hm ts (hunkUUID hm p.2) (occKey p) ∧ p.2 ∈ syn.hunks := by
  obtain ⟨hnd, hex, hinn⟩ := buildGroups_ok hm ts
  obtain ⟨inner, hinner⟩ := (hex _).mpr ⟨p, hp, rfl⟩
  obtain ⟨hnd2, hex2, hcond2⟩ := hinn _ inner hinner
  obtain ⟨syn, hsyn⟩ := (hex2 (occKey p)).mpr ⟨p, hp, rfl, rfl⟩
  obtain ⟨f1, f2, f3⟩ := hcond2 (occKey p) syn hsyn
  refine ⟨inner, syn, hinner, hsyn, f1, f2, f3, ?_⟩
  rw [f3]
  unfold groupHunks
  apply List.mem_map.mpr
  exact ⟨p, List.mem_filter.mpr ⟨hp, by simp⟩, rfl⟩

/-! ## The document-writing phase of the export -/

theorem foldl_jsSet_get {κ α : Type} [DecidableEq κ] (l : List (κ × α)) (obj : List (κ × α))
    (k : κ) :
    jsGet (l.foldl (fun o q => jsSet o q.1 q.2) obj) k =
      match lastVal l k with
      | some v => some v
      | none => jsGet obj k := by
  induction l generalizing obj with
  | nil => simp [lastVal]
  | cons q rest ih =>
      rw [List.foldl_cons, ih]
      rcases hl : lastVal rest k with _ | v
      · simp only [lastVal, hl]
        by_cases hq : q.1 = k
        · simp [hq, jsGet_jsSet]
        · simp [hq, jsGet_jsSet]
      · simp [lastVal, hl]

theorem foldl_jsSet_fresh {κ α : Type} [DecidableEq κ] (l : List (κ × α)) :
    ∀ obj : List (κ × α), (∀ q ∈ l, q.1 ∉ obj.map Prod.fst) → (l.map Prod.fst).Nodup →
      l.foldl (fun o q => jsSet o q.1 q.2) obj = obj ++ l := by
  induction l with
  | nil => simp
  | cons q rest ih =>
      intro obj hfresh hnd
      rw [List.foldl_cons]
      rw [jsSet_of_not_mem q.2 (hfresh q (List.mem_cons_self q rest))]
      rw [List.map_cons, List.nodup_cons] at hnd
      have h2 := ih (obj ++ [q]) (fun r hr => ?_) hnd.2
      · rw [h2, List.append_assoc, List.singleton_append]
      · rw [List.map_append, List.mem_append]
        rintro (hmem | hmem)
        · exact hfresh r (List.mem_cons_of_mem q hr) hmem
        · rw [List.map_singleton, List.mem_singleton] at hmem
          exact hnd.1 (hmem ▸ List.mem_map.mpr ⟨r, hr, rfl⟩)

theorem serialize_eq_foldl (diff : List FileDiff) (hunkMap : List (Nat × UUID))
    (labelMap : List (UUID × String)) :
    serialize diff hunkMap labelMap =
      (docEntries labelMap (buildGroups hunkMap (traversal diff))).foldl
        (fun o q => jsSet o q.1 q.2) [] := by
  unfold serialize docEntries
  rw [List.foldl_map]

/-- The exported document, looked up at any key, carries the value of
the last group written under that key (and nothing for other keys). -/
theorem serialize_get (diff : List FileDiff) (hunkMap : List (Nat × UUID))
    (labelMap : List (UUID × String)) (k : String) :
    jsGet (serialize diff hunkMap labelMap) k =
      lastVal (docEntries labelMap (buildGroups hunkMap (traversal diff))) k := by
  rw [serialize_eq_foldl, foldl_jsSet_get]
  rcases lastVal (docEntries labelMap (buildGroups hunkMap (traversal diff))) k with _ | v
  · simp [jsGet]
  · simp

/-- When the written keys are pairwise distinct, the exported document
is exactly the group list keyed by effective label text. -/
theorem serialize_eq_docEntries (diff : List FileDiff) (hunkMap : List (Nat × UUID))
    (labelMap : List (UUID × String))
    (hinj : ((docEntries labelMap (buildGroups hunkMap (traversal diff))).map Prod.fst).Nodup) :
    serialize diff hunkMap labelMap =
      docEntries labelMap (buildGroups hunkMap (traversal diff)) := by
  rw [serialize_eq_foldl]
  have h := foldl_jsSet_fresh (docEntries labelMap (buildGroups hunkMap (traversal diff))) []
    (fun q _ => by simp) hinj
  simpa using h

/-! ## The import loop -/

theorem assignHunks_get (id : UUID) (hs : List Hunk) :
    ∀ (hm : List (Nat × UUID)) (hid : Nat),
      jsGet (hs.foldl (fun hm h => jsSet hm h.hid id) hm) hid =
        if hid ∈ hs.map Hunk.hid then some id else jsGet hm hid := by
  induction hs with
  | nil => simp
  | cons h rest ih =>
      intro hm hid
      rw [List.foldl_cons, ih]
      by_cases h1 : hid ∈ rest.map Hunk.hid
      · simp [h1]
      · by_cases h2 : h.hid = hid
        · simp [h1, h2, jsGet_jsSet]
        · simp [h1, h2, Ne.symm h2, jsGet_jsSet]

theorem assignEntry_get (id : UUID) (fds : List FileDiff) :
    ∀ (hm : List (Nat × UUID)) (hid : Nat),
      jsGet (assignEntry hm fds id) hid =
        if hid ∈ entryHids fds then some id else jsGet hm hid := by
  induction fds with
  | nil => simp [assignEntry, entryHids]
  | cons fd rest ih =>
      intro hm hid
      unfold assignEntry at ih ⊢
      rw [List.foldl_cons, ih, assignHunks_get]
      have hsplit : entryHids (fd :: rest) = fd.hunks.map Hunk.hid ++ entryHids rest := by
        unfold entryHids
        rw [List.flatMap_cons, List.map_append]
      rw [hsplit]
      by_cases h1 : hid ∈ entryHids rest
      · simp [h1]
      · by_cases h2 : hid ∈ fd.hunks.map Hunk.hid
        · simp [h1, h2]
        · simp [h1, h2]

theorem natAddOneShift (a b : Nat) : a + 1 + b = a + (b + 1) := by
  omega

theorem importFold_snd (doc : List (String × List FileDiff)) :
    ∀ (s : AppState) (res : List FileDiff),
      (importFold doc s res).2 = res ++ (doc.map Prod.snd).flatten := by
  induction doc with
  | nil => simp [importFold]
  | cons e rest ih =>
      intro s res
      unfold importFold at ih ⊢
      rw [List.foldl_cons, ih]
      simp [importDocStep, List.append_assoc]

theorem importFold_frame (doc : List (String × List FileDiff)) :
    ∀ (s : AppState) (res : List FileDiff),
      (importFold doc s res).1.diff = s.diff ∧
      (importFold doc s res).1.labelFilter = s.labelFilter ∧
      (importFold doc s res).1.nextUUID = s.nextUUID + doc.length := by
  induction doc with
  | nil => simp [importFold]
  | cons e rest ih =>
      intro s res
      unfold importFold at ih ⊢
      rw [List.foldl_cons]
      obtain ⟨h1, h2, h3⟩ := ih (importDocStep (s, res) e).1 (importDocStep (s, res) e).2
      refine ⟨?_, ?_, ?_⟩
      · rw [h1]; rfl
      · rw [h2]; rfl
      · rw [h3]
        have hx : (importDocStep (s, res) e).1.nextUUID = s.nextUUID + 1 := rfl
        rw [hx, List.length_cons]
        exact natAddOneShift s.nextUUID rest.length

theorem importFold_labelMap (doc : List (String × List FileDiff)) :
    ∀ (s : AppState) (res : List FileDiff),
      (∀ k ∈ s.labelMap.map Prod.fst, k < s.nextUUID) →
      (importFold doc s res).1.labelMap =
        s.labelMap ++ (List.enumFrom s.nextUUID doc).map (fun q => (q.1, q.2.1)) := by
  induction doc with
  | nil => simp [importFold]
  | cons e rest ih =>
      intro s res hbound
      unfold importFold at ih ⊢
      rw [List.foldl_cons]
      have hstep : (importDocStep (s, res) e).1.labelMap = s.labelMap ++ [(s.nextUUID, e.1)] := by
        show jsSet s.labelMap s.nextUUID e.1 = s.labelMap ++ [(s.nextUUID, e.1)]
        apply jsSet_of_not_mem
        intro hmem
        exact absurd (hbound s.nextUUID hmem) (lt_irrefl s.nextUUID)
      have hnext : (importDocStep (s, res) e).1.nextUUID = s.nextUUID + 1 := rfl
      have hbound2 : ∀ k ∈ (importDocStep (s, res) e).1.labelMap.map Prod.fst,
          k < (importDocStep (s, res) e).1.nextUUID := by
        rw [hstep, hnext]
        intro k hk
        rw [List.map_append, List.mem_append] at hk
        rcases hk with hk | hk
        · exact Nat.lt_succ_of_lt (hbound k hk)
        · rw [List.map_singleton, List.mem_singleton] at hk
          rw [hk]
          exact Nat.lt_succ_self _
      rw [ih _ _ hbound2, hstep, hnext, List.enumFrom_cons, List.map_cons,
        List.append_assoc, List.singleton_append]

theorem importFold_hunkMap_notmem (doc : List (String × List FileDiff)) :
    ∀ (s : AppState) (res : List FileDiff) (hid : Nat),
      (∀ e ∈ doc, hid ∉ entryHids e.2) →
      jsGet (importFold doc s res).1.hunkMap hid = jsGet s.hunkMap hid := by
  induction doc with
  | nil =>
      intro s res hid hno
      rfl
  | cons e rest ih =>
      intro s res hid hno
      unfold importFold at ih ⊢
      rw [List.foldl_cons, ih _ _ _ (fun e' he' => hno e' (List.mem_cons_of_mem e he'))]
      show jsGet (assignEntry s.hunkMap e.2 s.nextUUID) hid = jsGet s.hunkMap hid
      rw [assignEntry_get, if_neg (hno e (List.mem_cons_self e rest))]

theorem jsGet_append {α β : Type} [DecidableEq α] (l1 l2 : List (α × β)) (k : α) :
    jsGet (l1 ++ l2) k =
      match jsGet l1 k with
      | some v => some v
      | none => jsGet l2 k := by
  induction l1 with
  | nil => simp [jsGet]
  | cons q rest ih =>
      by_cases hq : q.1 = k
      · show jsGet (q :: (rest ++ l2)) k = _
        rw [show jsGet (q :: (rest ++ l2)) k = some q.2 from by
          obtain ⟨a, b⟩ := q
          simp only [jsGet]
          rw [if_pos hq]]
        obtain ⟨a, b⟩ := q
        simp only [jsGet]
        rw [if_pos hq]
      · show jsGet (q :: (rest ++ l2)) k = _
        obtain ⟨a, b⟩ := q
        simp only [jsGet]
        rw [if_neg hq, if_neg hq, ih]

theorem importDocStep_labelMap (s : AppState) (res : List FileDiff)
    (e : String × List FileDiff)
    (hbound : ∀ k ∈ s.labelMap.map Prod.fst, k < s.nextUUID) :
    (importDocStep (s, res) e).1.labelMap = s.labelMap ++ [(s.nextUUID, e.1)] := by
  show jsSet s.labelMap s.nextUUID e.1 = s.labelMap ++ [(s.nextUUID, e.1)]
  exact jsSet_of_not_mem _ (fun hmem => absurd (hbound _ hmem) (lt_irrefl _))

theorem importDocStep_bound (s : AppState) (res : List FileDiff)
    (e : String × List FileDiff)
    (hbound : ∀ k ∈ s.labelMap.map Prod.fst, k < s.nextUUID) :
    ∀ k ∈ (importDocStep (s, res) e).1.labelMap.map Prod.fst,
      k < (importDocStep (s, res) e).1.nextUUID := by
  rw [importDocStep_labelMap s res e hbound]
  have hnext : (importDocStep (s, res) e).1.nextUUID = s.nextUUID + 1 := rfl
  rw [hnext]
  intro k hk
  rw [List.map_append, List.mem_append] at hk
  rcases hk with hk | hk
  · exact Nat.lt_succ_of_lt (hbound k hk)
  · rw [List.map_singleton, List.mem_singleton] at hk
    rw [hk]
    exact Nat.lt_succ_self _

/-- Looking up an imported hunk and its label: if the document splits as
`A ++ (t, fds) :: B`, the hunk occurs in `fds` and in no entry of `B`,
then after the import loop the hunk is associated to an id whose label
text is `t`. -/
theorem importFold_lookup (A : List (String × List FileDiff)) :
    ∀ (B : List (String × List FileDiff)) (t : String) (fds : List FileDiff)
      (s : AppState) (res : List FileDiff) (hid : Nat),
      hid ∈ entryHids fds → (∀ e ∈ B, hid ∉ entryHids e.2) →
      (∀ k ∈ s.labelMap.map Prod.fst, k < s.nextUUID) →
      ∃ id, jsGet (importFold (A ++ (t, fds) :: B) s res).1.hunkMap hid = some id ∧
        jsGet (importFold (A ++ (t, fds) :: B) s res).1.labelMap id = some t := by
  induction A with
  | nil =>
      intro B t fds s res hid hmem hB hbound
      refine ⟨s.nextUUID, ?_, ?_⟩
      · show jsGet (importFold ((t, fds) :: B) s res).1.hunkMap hid = some s.nextUUID
        unfold importFold
        rw [List.foldl_cons]
        have h1 := importFold_hunkMap_notmem B (importDocStep (s, res) (t, fds)).1
          (importDocStep (s, res) (t, fds)).2 hid hB
        unfold importFold at h1
        rw [h1]
        show jsGet (assignEntry s.hunkMap fds s.nextUUID) hid = some s.nextUUID
        rw [assignEntry_get, if_pos hmem]
      · show jsGet (importFold ((t, fds) :: B) s res).1.labelMap s.nextUUID = some t
        unfold importFold
        rw [List.foldl_cons]
        have h2 := importFold_labelMap B (importDocStep (s, res) (t, fds)).1
          (importDocStep (s, res) (t, fds)).2 (importDocStep_bound s res (t, fds) hbound)
        unfold importFold at h2
        rw [h2, importDocStep_labelMap s res (t, fds) hbound]
        have hnext : (importDocStep (s, res) (t, fds)).1.nextUUID = s.nextUUID + 1 := rfl
        rw [hnext, List.append_assoc, jsGet_append]
        have hnone : jsGet s.labelMap s.nextUUID = none :=
          (jsGet_eq_none_iff _ _).mpr (fun hmem' => absurd (hbound _ hmem') (lt_irrefl _))
        rw [hnone]
        simp [jsGet]
  | cons a A' ih =>
      intro B t fds s res hid hmem hB hbound
      have h := ih B t fds (importDocStep (s, res) a).1 (importDocStep (s, res) a).2 hid
        hmem hB (importDocStep_bound s res a hbound)
      unfold importFold at h ⊢
      rw [List.cons_append, List.foldl_cons]
      exact h

/-! ## The round trip -/

theorem docEntries_keys_nodup (lm : List (UUID × String)) (m : OuterMap)
    (hnd : (m.map Prod.fst).Nodup)
    (hinj : ∀ u1 ∈ m.map Prod.fst, ∀ u2 ∈ m.map Prod.fst,
      jsLabelText lm u1 = jsLabelText lm u2 → u1 = u2) :
    ((docEntries lm m).map Prod.fst).Nodup := by
  have heq : (docEntries lm m).map Prod.fst = (m.map Prod.fst).map (jsLabelText lm) := by
    unfold docEntries
    rw [List.map_map, List.map_map]
    rfl
  rw [heq]
  exact List.Nodup.map_on hinj hnd

/-- A hunk identity occurring among the synthetic diffs of group
`(u, inner)` of a correct grouping map comes from a traversal occurrence
whose effective uuid is `u`. -/
theorem hid_in_group (hm : List (Nat × UUID)) (ts : List (FileDiff × Hunk)) (m : OuterMap)
    (hok : GroupsOK hm ts m) (u : UUID) (inner : InnerMap)
    (hmem : (u, inner) ∈ m) (hid : Nat) (hhid : hid ∈ entryHids (inner.map Prod.snd)) :
    ∃ q ∈ ts, q.2.hid = hid ∧ hunkUUID hm q.2 = u := by
  obtain ⟨hknd, hex, hinn⟩ := hok
  have hget : jsGet m u = some inner := jsGet_of_mem_nodup hknd hmem
  obtain ⟨hind, hiex, hicond⟩ := hinn u inner hget
  unfold entryHids at hhid
  rw [List.mem_map] at hhid
  obtain ⟨h', hh', rfl⟩ := hhid
  rw [List.mem_flatMap] at hh'
  obtain ⟨syn', hsyn'm, hh'syn⟩ := hh'
  rw [List.mem_map] at hsyn'm
  obtain ⟨⟨key', synval⟩, hkeymem, hsynval⟩ := hsyn'm
  have hsynval' : synval = syn' := hsynval
  subst hsynval'
  have hgetin : jsGet inner key' = some synval := jsGet_of_mem_nodup hind hkeymem
  obtain ⟨g1, g2, g3⟩ := hicond key' synval hgetin
  rw [g3] at hh'syn
  unfold groupHunks at hh'syn
  rw [List.mem_map] at hh'syn
  obtain ⟨q, hqf, hq2⟩ := hh'syn
  rw [List.mem_filter] at hqf
  obtain ⟨hqts, hqpred⟩ := hqf
  rw [decide_eq_true_eq] at hqpred
  exact ⟨q, hqts, by rw [hq2], hqpred.1⟩

/-- Claim C1, amended. Exporting and re-importing preserves every hunk:
provided the loaded hunk objects are pairwise distinct (as parsing
guarantees) and the effective export keys (label text when nonempty,
the sentinel string for uncategorized hunks and empty-text labels) are
distinct for distinct association targets, every hunk occurrence of the
original state reappears after `roundTrip` with identical content and
filenames, associated to a fresh label whose text is the hunk's original
effective export key. In particular a hunk labelled with nonempty text
keeps that text, and an uncategorized hunk comes back under a label with
the literal text of the sentinel. -/
theorem c1_round_trip_amended (s : AppState)
    (hids : ((traversal s.diff).map (fun p => p.2.hid)).Nodup)
    (htext : ∀ p ∈ traversal s.diff, ∀ q ∈ traversal s.diff,
      jsLabelText s.labelMap (hunkUUID s.hunkMap p.2) =
        jsLabelText s.labelMap (hunkUUID s.hunkMap q.2) →
      hunkUUID s.hunkMap p.2 = hunkUUID s.hunkMap q.2) :
    ∀ p ∈ traversal s.diff, ∃ q ∈ traversal (roundTrip s).diff,
      q.2 = p.2 ∧ q.1.oldFileName = p.1.oldFileName ∧ q.1.newFileName = p.1.newFileName ∧
      ∃ id, jsGet (roundTrip s).hunkMap p.2.hid = some id ∧
        jsGet (roundTrip s).labelMap id =
          some (jsLabelText s.labelMap (hunkUUID s.hunkMap p.2)) := by
  intro p hp
  obtain ⟨hknd, hex, hinn⟩ := buildGroups_ok s.hunkMap (traversal s.diff)
  obtain ⟨inner0, syn0, hinner0, hsyn0, hf1, hf2, hf3, hhmem⟩ :=
    buildGroups_complete s.hunkMap (traversal s.diff) p hp
  have hdocinj : ((docEntries s.labelMap (buildGroups s.hunkMap (traversal s.diff))).map
      Prod.fst).Nodup := by
    apply docEntries_keys_nodup _ _ hknd
    intro u1 hu1 u2 hu2 htxt
    obtain ⟨inner1, hi1⟩ := (jsGet_isSome_iff _ u1).mpr hu1
    obtain ⟨q1, hq1, hqu1⟩ := (hex u1).mp ⟨inner1, hi1⟩
    obtain ⟨inner2, hi2⟩ := (jsGet_isSome_iff _ u2).mpr hu2
    obtain ⟨q2, hq2, hqu2⟩ := (hex u2).mp ⟨inner2, hi2⟩
    subst hqu1
    subst hqu2
    exact htext q1 hq1 q2 hq2 htxt
  have hser : serialize s.diff s.hunkMap s.labelMap =
      docEntries s.labelMap (buildGroups s.hunkMap (traversal s.diff)) :=
    serialize_eq_docEntries _ _ _ hdocinj
  obtain ⟨mA, mB, hsplit⟩ := List.append_of_mem (jsGet_mem hinner0)
  have hBno : ∀ e ∈ docEntries s.labelMap mB, p.2.hid ∉ entryHids e.2 := by
    intro e he hbad
    unfold docEntries at he
    rw [List.mem_map] at he
    obtain ⟨⟨uj, innerj⟩, hgj, rfl⟩ := he
    have hmemm : (uj, innerj) ∈ buildGroups s.hunkMap (traversal s.diff) := by
      rw [hsplit]
      exact List.mem_append_right _ (List.mem_cons_of_mem _ hgj)
    obtain ⟨q, hqts, hqhid, hqu⟩ := hid_in_group s.hunkMap (traversal s.diff) _
      ⟨hknd, hex, hinn⟩ uj innerj hmemm p.2.hid hbad
    have hqp : q = p := List.inj_on_of_nodup_map hids hqts hp (by rw [hqhid])
    rw [hqp] at hqu
    have hknd' := hknd
    rw [hsplit, List.map_append, List.map_cons] at hknd'
    rw [List.nodup_append] at hknd'
    have hnotin : hunkUUID s.hunkMap p.2 ∉ mB.map Prod.fst :=
      (List.nodup_cons.mp hknd'.2.1).1
    exact hnotin (hqu ▸ List.mem_map.mpr ⟨(uj, innerj), hgj, rfl⟩)
  have hdocsplit : docEntries s.labelMap (buildGroups s.hunkMap (traversal s.diff)) =
      docEntries s.labelMap mA ++
        (jsLabelText s.labelMap (hunkUUID s.hunkMap p.2), inner0.map Prod.snd) ::
          docEntries s.labelMap mB := by
    unfold docEntries
    rw [hsplit, List.map_append, List.map_cons]
  have hsynmem : syn0 ∈ inner0.map Prod.snd :=
    List.mem_map.mpr ⟨(occKey p, syn0), jsGet_mem hsyn0, rfl⟩
  have hhid0 : p.2.hid ∈ entryHids (inner0.map Prod.snd) := by
    unfold entryHids
    exact List.mem_map.mpr ⟨p.2, List.mem_flatMap.mpr ⟨syn0, hsynmem, hhmem⟩, rfl⟩
  have hbound0 : ∀ k ∈ (importInitState s).labelMap.map Prod.fst,
      k < (importInitState s).nextUUID := by
    intro k hk
    simp [importInitState] at hk
  obtain ⟨id, hidget, hlblget⟩ := importFold_lookup (docEntries s.labelMap mA)
    (docEntries s.labelMap mB) (jsLabelText s.labelMap (hunkUUID s.hunkMap p.2))
    (inner0.map Prod.snd) (importInitState s) [] p.2.hid hhid0 hBno hbound0
  have hrt : roundTrip s =
      { (importFold (serialize s.diff s.hunkMap s.labelMap) (importInitState s) []).1 with
        diff :=
          (importFold (serialize s.diff s.hunkMap s.labelMap) (importInitState s) []).2 } :=
    rfl
  rw [hser, hdocsplit] at hrt
  have hdiff : (roundTrip s).diff =
      ((docEntries s.labelMap mA ++
        (jsLabelText s.labelMap (hunkUUID s.hunkMap p.2), inner0.map Prod.snd) ::
          docEntries s.labelMap mB).map Prod.snd).flatten := by
    rw [hrt]
    show (importFold _ _ _).2 = _
    rw [importFold_snd]
    rw [List.nil_append]
  refine ⟨(syn0, p.2), ?_, rfl, hf1, hf2, id, ?_, ?_⟩
  · unfold traversal
    rw [List.mem_flatMap]
    refine ⟨syn0, ?_, List.mem_map.mpr ⟨p.2, hhmem, rfl⟩⟩
    rw [hdiff]
    rw [List.mem_flatten]
    refine ⟨inner0.map Prod.snd, ?_, hsynmem⟩
    apply List.mem_map.mpr
    refine ⟨(jsLabelText s.labelMap (hunkUUID s.hunkMap p.2), inner0.map Prod.snd), ?_, rfl⟩
    exact List.mem_append_right _ (List.mem_cons_self _ _)
  · rw [hrt]
    exact hidget
  · rw [hrt]
    exact hlblget

/-! ## Visibility and rename helpers -/

theorem mem_visibleHunks (s : AppState) (p : FileDiff × Hunk) :
    p ∈ visibleHunks s ↔ p ∈ traversal s.diff ∧ hunkVisible s p.2 = true := by
  unfold visibleHunks traversal
  simp only [List.mem_flatMap, List.mem_map, List.mem_filter]
  constructor
  · rintro ⟨fd, hfd, h, ⟨hh, hpred⟩, rfl⟩
    exact ⟨⟨fd, hfd, h, hh, rfl⟩, hpred⟩
  · rintro ⟨⟨fd, hfd, h, hh, rfl⟩, hpred⟩
    exact ⟨fd, hfd, h, ⟨hh, hpred⟩, rfl⟩

theorem hunkVisible_iff (s : AppState) (h : Hunk) :
    hunkVisible s h = true ↔
      (s.labelFilter = [] ∨ jsGet s.hunkMap h.hid = none ∨
        ∃ u, jsGet s.hunkMap h.hid = some u ∧ u ∈ s.labelFilter) := by
  unfold hunkVisible
  rw [decide_eq_true_eq]
  cases hj : jsGet s.hunkMap h.hid with
  | none => simp [List.length_eq_zero]
  | some u => simp [List.length_eq_zero]

theorem jsSet_eq_map_of_mem {α β : Type} [DecidableEq α] {m : List (α × β)} (k : α) (v : β)
    (hnd : (m.map Prod.fst).Nodup) (hmem : k ∈ m.map Prod.fst) :
    jsSet m k v = m.map (fun q => if q.1 = k then (k, v) else q) := by
  induction m with
  | nil => simp at hmem
  | cons q rest ih =>
      obtain ⟨a, b⟩ := q
      rw [List.map_cons, List.nodup_cons] at hnd
      obtain ⟨hq, hndr⟩ := hnd
      by_cases hak : a = k
      · subst hak
        have hrest : rest.map (fun r => if r.1 = a then (a, v) else r) = rest := by
          rw [show rest.map (fun r => if r.1 = a then (a, v) else r) = rest.map id from
            List.map_congr_left ?_, List.map_id]
          intro r hr
          rw [if_neg (fun hra => hq (List.mem_map.mpr ⟨r, hr, hra⟩))]
          rfl
        show jsSet ((a, b) :: rest) a v = _
        rw [List.map_cons]
        simp [jsSet, hrest]
      · have hmem' : k ∈ rest.map Prod.fst := by
          rw [List.map_cons, List.mem_cons] at hmem
          rcases hmem with hmem | hmem
          · exact absurd hmem.symm hak
          · exact hmem
        show jsSet ((a, b) :: rest) k v = _
        rw [List.map_cons]
        simp [jsSet, hak, ih hndr hmem']

/-! ## Claims -/

/-- Claim C1, counterexample. At `c1cexState` two distinct labels share
the text "x"; `exportAsJSON` writes both groups under the single key
"x", the later assignment overwriting the earlier one, so the hunk of
the first label is absent from the document and the round trip does not
reconstruct it: no hunk of the re-imported state matches its content. -/
theorem c1_counterexample :
    ¬ (∀ p ∈ traversal c1cexState.diff, ∃ q ∈ traversal (roundTrip c1cexState).diff,
      q.2.oldStart = p.2.oldStart ∧ q.2.oldLines = p.2.oldLines ∧
      q.2.newStart = p.2.newStart ∧ q.2.newLines = p.2.newLines ∧
      q.2.lines = p.2.lines ∧
      q.1.oldFileName = p.1.oldFileName ∧ q.1.newFileName = p.1.newFileName ∧
      (jsGet (roundTrip c1cexState).hunkMap q.2.hid).bind
          (jsGet (roundTrip c1cexState).labelMap) =
        (jsGet c1cexState.hunkMap p.2.hid).bind (jsGet c1cexState.labelMap)) := by
  decide

/-- Claim C1, witness: the amended round-trip theorem applied to a
state with one hunk labeled "x" and one uncategorized hunk. -/
theorem c1_witness :
    ∃ q ∈ traversal (roundTrip w1state).diff,
      q.2 = hA ∧ q.1.oldFileName = fdAB.oldFileName ∧ q.1.newFileName = fdAB.newFileName ∧
      ∃ id, jsGet (roundTrip w1state).hunkMap hA.hid = some id ∧
        jsGet (roundTrip w1state).labelMap id =
          some (jsLabelText w1state.labelMap (hunkUUID w1state.hunkMap hA)) :=
  c1_round_trip_amended w1state (by decide) (by decide) (fdAB, hA) (by decide)

/-- Claim C2 (code bug): after `removeLabel` deletes label 1, the stale
id stays in the Filter Store forever (the only code mutating the filter
is the label row's toggle effect, which has no unmount cleanup), and the
association of a hunk hidden by the filter keeps dangling through any
number of render passes, so `get(h)` does not become absent. -/
theorem c2_delete_cascade_code_bug :
    (∀ n : Nat, 1 ∈ (renderPass^[n] (removeLabel c2stateA 1)).labelFilter) ∧
    (∀ n : Nat, jsGet ((renderPass^[n] (removeLabel c2stateB 1)).hunkMap) 0 = some 1) := by
  constructor
  · intro n
    have hconst : (renderPass^[n] (removeLabel c2stateA 1)).labelFilter =
        (removeLabel c2stateA 1).labelFilter := by
      induction n with
      | zero => rfl
      | succ n ih =>
          rw [Function.iterate_succ_apply']
          show (renderPass^[n] (removeLabel c2stateA 1)).labelFilter = _
          exact ih
    rw [hconst]
    decide
  · intro n
    have hfix : renderPass (removeLabel c2stateB 1) = removeLabel c2stateB 1 := by decide
    rw [Function.iterate_fixed hfix]
    decide

/-- Claim C3 (code bug): on any parse failure the load clears the
Association Store before the parser runs, so the prior associations are
lost even though the label store and filter are untouched; at `c3state`
the association store was nonempty and is emptied. -/
theorem c3_parse_error_code_bug :
    (∀ (s : AppState) (e : String),
      loadInput s (.jsonFile (.error e)) = ({ s with hunkMap := [] }, .error e) ∧
      loadInput s (.diffFile (.error e)) = ({ s with hunkMap := [] }, .error e)) ∧
    (loadInput c3state
      (RawInput.jsonFile (.error "SyntaxError: Unexpected end of JSON input"))).1.hunkMap
      ≠ c3state.hunkMap := by
  refine ⟨fun s e => ⟨rfl, rfl⟩, ?_⟩
  decide

/-- Claim C4, amended: loading unified-diff input resets the Association
Store to empty and replaces the diff list, but leaves the Label Store
(and the filter) unchanged rather than resetting it. -/
theorem c4_diff_load_amended (s : AppState) (fds : List FileDiff) :
    loadInput s (.diffFile (.ok fds)) = ({ s with hunkMap := [], diff := fds }, .ok ()) ∧
    (loadInput s (.diffFile (.ok fds))).1.labelMap = s.labelMap ∧
    (loadInput s (.diffFile (.ok fds))).1.hunkMap = [] ∧
    (loadInput s (.diffFile (.ok fds))).1.labelFilter = s.labelFilter :=
  ⟨rfl, rfl, rfl, rfl⟩

/-- Claim C4, counterexample: at `c4state` the label store holds one
label; after loading unified-diff input it is not empty, contradicting
the claim that the Label Store is reset on every unified-diff load. -/
theorem c4_counterexample :
    ¬ ((loadInput c4state (.diffFile (.ok []))).1.labelMap = []) := by
  decide

/-- Claim C5, amended: the grouping phase is correct for every state
(groups indexed by effective uuid and filename pair, synthetic diffs
carrying the filenames and the group's hunks in traversal order), and
the document lookup at any key returns the value of the last group
written under that key, the key being the label text when nonempty and
the sentinel "undefined" for uncategorized hunks and empty-text labels. -/
theorem c5_serializer_amended (d : List FileDiff) (hm : List (Nat × UUID))
    (lm : List (UUID × String)) :
    GroupsOK hm (traversal d) (buildGroups hm (traversal d)) ∧
    (∀ k, jsGet (serialize d hm lm) k =
      lastVal (docEntries lm (buildGroups hm (traversal d))) k) :=
  ⟨buildGroups_ok hm (traversal d), fun k => serialize_get d hm lm k⟩

/-- Claim C5, counterexample: at `c5state` a hunk is associated to label
1 whose current text is the empty string; the document's only key is the
sentinel "undefined" and the label's current text "" is not a key, so
the serializer does not key the document by the label's current text. -/
theorem c5_counterexample :
    (fdA1, hA) ∈ traversal c5state.diff ∧
    jsGet c5state.hunkMap hA.hid = some 1 ∧
    jsGet c5state.labelMap 1 = some "" ∧
    "" ∉ (serialize c5state.diff c5state.hunkMap c5state.labelMap).map Prod.fst ∧
    (serialize c5state.diff c5state.hunkMap c5state.labelMap).map Prod.fst = ["undefined"] := by
  refine ⟨?_, ?_, ?_, ?_, ?_⟩ <;> decide

/-- Claim C5, witness: the document lookup characterization evaluated at
a concrete state with a labeled and an uncategorized hunk. -/
theorem c5_witness :
    jsGet (serialize c5wstate.diff c5wstate.hunkMap c5wstate.labelMap) "x" =
      some [⟨"a.txt", "b.txt", [hA]⟩] :=
  ((c5_serializer_amended c5wstate.diff c5wstate.hunkMap c5wstate.labelMap).2 "x").trans
    (by decide)

/-- Claim C6: a hunk occurrence is rendered if and only if it occurs in
the traversal and the filter is empty, or the hunk has no association,
or the filter contains the associated label id; in particular an
uncategorized hunk is visible under every filter and an empty filter
shows every hunk. -/
theorem c6_filter_visibility (s : AppState) (p : FileDiff × Hunk) :
    (p ∈ visibleHunks s ↔ p ∈ traversal s.diff ∧
      (s.labelFilter = [] ∨ jsGet s.hunkMap p.2.hid = none ∨
        ∃ u, jsGet s.hunkMap p.2.hid = some u ∧ u ∈ s.labelFilter)) ∧
    (jsGet s.hunkMap p.2.hid = none → (p ∈ visibleHunks s ↔ p ∈ traversal s.diff)) ∧
    (s.labelFilter = [] → (p ∈ visibleHunks s ↔ p ∈ traversal s.diff)) := by
  have h1 := mem_visibleHunks s p
  have h2 := hunkVisible_iff s p.2
  refine ⟨?_, ?_, ?_⟩
  · rw [h1, h2]
  · intro hnone
    rw [h1, h2]
    simp [hnone]
  · intro hfil
    rw [h1, h2]
    simp [hfil]

/-- Claim C6, witness: with an empty filter the unassociated sample hunk
is rendered. -/
theorem c6_witness : (fdA1, hA) ∈ visibleHunks c6state :=
  ((c6_filter_visibility c6state (fdA1, hA)).2.2 rfl).mpr (by decide)

/-- Claim C7, counterexample: renaming the absent id 5 on an empty label
store does not leave the store unchanged: the pair is inserted. -/
theorem c7_counterexample :
    ¬ ((changeLabel c7state 5 "x").labelMap = c7state.labelMap) := by
  decide

/-- Claim C7, amended: `changeLabel` on an id absent from the label
store raises no error but inserts `(id, text)` as a new entry at the end
of the insertion order; the other stores are untouched. -/
theorem c7_rename_absent_amended (s : AppState) (id : UUID) (t : String)
    (habs : jsGet s.labelMap id = none) :
    (changeLabel s id t).labelMap = s.labelMap ++ [(id, t)] ∧
    (changeLabel s id t).hunkMap = s.hunkMap ∧
    (changeLabel s id t).labelFilter = s.labelFilter := by
  refine ⟨?_, rfl, rfl⟩
  show jsSet s.labelMap id t = _
  exact jsSet_of_not_mem t ((jsGet_eq_none_iff _ _).mp habs)

/-- Claim C7, witness: the amended statement evaluated at an empty label
store and id 5. -/
theorem c7_witness :
    jsGet c7state.labelMap 5 = none ∧
    (changeLabel c7state 5 "x").labelMap = c7state.labelMap ++ [(5, "x")] :=
  ⟨by decide, (c7_rename_absent_amended c7state 5 "x" (by decide)).1⟩

/-- Claim C8: renaming a present label overwrites only that label's text
in place — the store keeps every key at its original insertion-order
position, other labels' texts are unchanged, and the association store
and filter are untouched, so every hunk previously associated to the
label still resolves to it. -/
theorem c8_rename_frame (s : AppState) (id : UUID) (oldT newT : String)
    (hpres : jsGet s.labelMap id = some oldT)
    (hnd : (s.labelMap.map Prod.fst).Nodup) :
    (changeLabel s id newT).labelMap =
      s.labelMap.map (fun q => if q.1 = id then (id, newT) else q) ∧
    jsGet (changeLabel s id newT).labelMap id = some newT ∧
    (∀ u, u ≠ id → jsGet (changeLabel s id newT).labelMap u = jsGet s.labelMap u) ∧
    (changeLabel s id newT).hunkMap = s.hunkMap ∧
    (∀ hid L, jsGet s.hunkMap hid = some L →
      jsGet (changeLabel s id newT).hunkMap hid = some L) ∧
    (changeLabel s id newT).labelFilter = s.labelFilter := by
  have hmem : id ∈ s.labelMap.map Prod.fst :=
    List.mem_map.mpr ⟨(id, oldT), jsGet_mem hpres, rfl⟩
  refine ⟨?_, ?_, ?_, rfl, ?_, rfl⟩
  · show jsSet s.labelMap id newT = _
    exact jsSet_eq_map_of_mem id newT hnd hmem
  · show jsGet (jsSet s.labelMap id newT) id = some newT
    exact jsGet_jsSet_self _ _ _
  · intro u hu
    show jsGet (jsSet s.labelMap id newT) u = _
    exact jsGet_jsSet_ne _ _ (Ne.symm hu)
  · intro hid L hL
    exact hL

/-- Claim C8, witness: renaming label 1 from "a" to "new" at a concrete
state with two labels and one association. -/
theorem c8_witness :
    jsGet (changeLabel w8state 1 "new").labelMap 1 = some "new" ∧
    (changeLabel w8state 1 "new").labelMap =
      w8state.labelMap.map (fun q => if q.1 = 1 then (1, "new") else q) :=
  ⟨(c8_rename_frame w8state 1 "a" "new" (by decide) (by decide)).2.1,
   (c8_rename_frame w8state 1 "a" "new" (by decide) (by decide)).1⟩

/-- Claim C9: when the grouping phase yields exactly two groups whose
effective texts are the same string, the exported document has that
string as its single key and carries only the second group's synthetic
diffs — the earlier group's diffs are overwritten, not merged. -/
theorem c9_duplicate_texts_last_write (d : List FileDiff) (hm : List (Nat × UUID))
    (lm : List (UUID × String)) (u1 u2 : UUID) (in1 in2 : InnerMap) (t : String)
    (hgroups : buildGroups hm (traversal d) = [(u1, in1), (u2, in2)])
    (ht1 : jsLabelText lm u1 = t) (ht2 : jsLabelText lm u2 = t) :
    serialize d hm lm = [(t, in2.map Prod.snd)] ∧
    ∀ fds, (t, fds) ∈ serialize d hm lm → fds = in2.map Prod.snd := by
  have hser : serialize d hm lm = [(t, in2.map Prod.snd)] := by
    unfold serialize
    rw [hgroups, List.foldl_cons, List.foldl_cons, List.foldl_nil, ht1, ht2]
    simp [jsSet]
  refine ⟨hser, fun fds hmem => ?_⟩
  rw [hser] at hmem
  exact congrArg Prod.snd (List.mem_singleton.mp hmem)

/-- Claim C9, witness: at `c9state` labels 1 and 2 both read "x"; the
export contains only the second label's group. -/
theorem c9_witness :
    serialize c9state.diff c9state.hunkMap c9state.labelMap =
      [("x", [⟨"a.txt", "b.txt", [hB]⟩])] :=
  (c9_duplicate_texts_last_write c9state.diff c9state.hunkMap c9state.labelMap 1 2
    [(("a.txt", "b.txt"), ⟨"a.txt", "b.txt", [hA]⟩)]
    [(("a.txt", "b.txt"), ⟨"a.txt", "b.txt", [hB]⟩)] "x"
    (by decide) (by decide) (by decide)).1

/-- Claim C10: empty label text is rejected by `addLabel` but reachable
via `changeLabel`; a label with empty text is written under the sentinel
key "undefined", the same key an uncategorized hunk would get, so its
hunks are indistinguishable from uncategorized ones in the document. -/
theorem c10_empty_text_label (s : AppState) (u : UUID) (inner : InnerMap)
    (hu : jsGet s.labelMap u = some "")
    (hnull : jsGet s.labelMap NULL_UUID = none)
    (hg : buildGroups s.hunkMap (traversal s.diff) = [(u, inner)]) :
    addLabel s "" = s ∧
    (changeLabel s u "").labelMap = jsSet s.labelMap u "" ∧
    jsLabelText s.labelMap u = "undefined" ∧
    jsLabelText s.labelMap u = jsLabelText s.labelMap NULL_UUID ∧
    serialize s.diff s.hunkMap s.labelMap = [("undefined", inner.map Prod.snd)] := by
  have ht : jsLabelText s.labelMap u = "undefined" := by
    unfold jsLabelText
    rw [hu]
    rfl
  refine ⟨?_, rfl, ht, ?_, ?_⟩
  · unfold addLabel
    rfl
  · rw [ht]
    unfold jsLabelText
    rw [hnull]
  · unfold serialize
    rw [hg, List.foldl_cons, List.foldl_nil, ht]
    rfl

/-- Claim C10, witness: the empty-text label at `c10state` exports its
hunk under "undefined". -/
theorem c10_witness :
    serialize c10state.diff c10state.hunkMap c10state.labelMap =
      [("undefined", [⟨"a.txt", "b.txt", [hA]⟩])] :=
  (c10_empty_text_label c10state 1
    [(("a.txt", "b.txt"), ⟨"a.txt", "b.txt", [hA]⟩)]
    (by decide) (by decide) (by decide)).2.2.2.2
